import Mathlib

/-!
# Seq compiler driver, pipeline front end and codegen visitor

A shallow embedding of the parts of `fabbondanza/seq` that the specification talks about:

* `src/compiler/parser/parser.cpp` : `parse`, `execute`, `compile`;
* `src/include/seq/seq.h` : `SeqModule::source`, the aggregators;
* `src/compiler/parser/visitors/codegen/codegen.h` : the `visit` overrides of `CodegenVisitor`.

`std::string` is `String`, `std::vector` is `List`, a C++ exception is an `Except` error and
`exit` is a second kind of abrupt completion that no `catch` intercepts.

The sources declare but do not define the realization cache, `CodegenVisitor::realizeFunc` and
`PipelineAggregator::addWithIndex`; these are modelled from the specification, and every such
definition says so in its comment.
-/

namespace Seq

/-! ## Driver: `parser.cpp` -/

/-- Source position of an error, the value of `e.getSrcInfo()`. -/
structure SrcInfo where
  file : String
  line : Int
  col : Int
deriving DecidableEq, Repr

/-- The exception class `seq::exc::SeqException`: `what()` and `getSrcInfo()`. -/
structure SeqException where
  what : String
  getSrcInfo : SrcInfo
deriving DecidableEq, Repr

/-- One call of the diagnostics function `compilationError(msg, file, line, col)`. -/
structure Diagnostic where
  msg : String
  file : String
  line : Int
  col : Int
deriving DecidableEq, Repr

/-- The driver-visible global state: `config::config().debug` and the calls of
`compilationError` made so far, oldest first. -/
structure Driver where
  debug : Bool
  diagnostics : List Diagnostic
deriving DecidableEq, Repr

/-- The external diagnostics function `seq::compilationError`; a call is recorded. -/
def compilationError (d : Driver) (msg file : String) (line col : Int) : Driver :=
  { d with diagnostics := d.diagnostics ++ [⟨msg, file, line, col⟩] }

/-- The module object the driver creates in `parse`: `new seq::SeqModule()` followed by
`setFileName(file)`. -/
structure ParsedModule where
  fileName : String
deriving DecidableEq, Repr

/-- The constructor call `new seq::SeqModule()`. -/
def ParsedModule.new : ParsedModule := ⟨""⟩

/-- The method `module->setFileName(file)`. -/
def ParsedModule.setFileName (_m : ParsedModule) (file : String) : ParsedModule := ⟨file⟩

/-- The two methods of the module that the entry points call; their bodies are outside the
driver, so they are parameters: each either returns or raises a `SeqException`. -/
structure ModuleMethods where
  compile : ParsedModule → String → Except SeqException Unit
  execute : ParsedModule → List String → List String → Except SeqException Unit

/-- Source function `compile(module, out, debug)` of `parser.cpp`, lines 90-98. The result is
`Except` so that an exception leaving the function would be visible as `.error`. -/
def compile (mm : ModuleMethods) (module : ParsedModule) (out : String) (debug : Bool)
    (d : Driver) : Except SeqException Driver :=
  let d := { d with debug := debug }
  match mm.compile module out with
  | .ok () => .ok d
  | .error e =>
    .ok (compilationError d e.what e.getSrcInfo.file e.getSrcInfo.line e.getSrcInfo.col)

/-- Source function `execute(module, args, libs, debug)` of `parser.cpp`, lines 79-88. -/
def execute (mm : ModuleMethods) (module : ParsedModule) (args libs : List String)
    (debug : Bool) (d : Driver) : Except SeqException Driver :=
  let d := { d with debug := debug }
  match mm.execute module args libs with
  | .ok () => .ok d
  | .error e =>
    .ok (compilationError d e.what e.getSrcInfo.file e.getSrcInfo.line e.getSrcInfo.col)

/-! ### Reading the file and splitting it into cases -/

/-- All the lines that repeated `std::getline(fin, line)` yields on a stream holding `cs`:
the characters up to the next newline, the newline itself dropped; the call that extracts
nothing at end of file fails and ends the loop. `cur` is the line read so far and `any` records
that a character, newline included, was extracted for it. -/
def getlineAux : List Char → List Char → Bool → List String
  | [], cur, any => if any then [String.mk cur] else []
  | c :: cs, cur, _ =>
    if c = '\n' then String.mk cur :: getlineAux cs [] false
    else getlineAux cs (cur ++ [c]) true

/-- The lines of a stream with the given contents. -/
def getlines (content : String) : List String :=
  getlineAux content.data [] false

/-- The loop of `parse`, lines 37-43, over the lines still to read: a line equal to `--`
pushes `current` and resets it, any other line is appended with a newline. -/
def splitLoop : List String → List String → String → List String × String
  | [], cases, current => (cases, current)
  | line :: rest, cases, current =>
    if line = "--" then splitLoop rest (cases ++ [current]) ""
    else splitLoop rest cases (current ++ (line ++ "\n"))

/-- The vector `cases` of `parse` after line 45: the loop, then the push of a non-empty
`current`. -/
def readCases (lines : List String) : List String :=
  let r := splitLoop lines [] ""
  if r.2.length ≠ 0 then r.1 ++ [r.2] else r.1

/-! ### `parse` -/

/-- A `FILE *`: `none` is the null pointer that `fopen` returns on failure, `some path` a stream
open on `path`. -/
abbrev FilePtr := Option String

/-- The call `fopen(path, "w")` in a file system whose `writable` tells which paths can be
opened for writing. -/
def fopen (writable : String → Bool) (path : String) : FilePtr :=
  if writable path then some path else none

/-- The collaborators `parse` calls on each case; each may raise a `SeqException`.
`realizeBlock` is handed the output stream. -/
structure Frontend (Stmts Ctx : Type) where
  parse_code : String → String → Except SeqException Stmts
  getContext : String → String → Except SeqException Ctx
  realizeBlock : Ctx → Stmts → FilePtr → Except SeqException Unit

/-- Abrupt completion inside the `try` block of `parse`: a raised exception; `exit(status)`,
which ends the process and is not seen by any handler; or the death of the process on a use of
the null stream, which is undefined behaviour and no handler sees it either. -/
inductive Abort where
  | exit (status : Int)
  | raise (e : SeqException)
  | crash
deriving DecidableEq, Repr

/-- A collaborator call seen from inside the `try` block. -/
def liftExc {α : Type} : Except SeqException α → Except Abort α
  | .ok a => .ok a
  | .error e => .error (.raise e)

/-- The call `fmt::print(fo, ...)` of line 51: it writes to the stream, and on the null pointer
the process dies. -/
def fmtPrint : FilePtr → Except Abort Unit
  | some _ => .ok ()
  | none => .error .crash

/-- The call `fclose(fo)` of line 53: on the null pointer the process dies. -/
def fclose : FilePtr → Except Abort Unit
  | some _ => .ok ()
  | none => .error .crash

/-- The body of the `for` loop, lines 48-51, for one case: the three collaborator calls and the
print of the separator to `fo`. -/
def runCase {Stmts Ctx : Type} (fe : Frontend Stmts Ctx) (argv0 file : String) (fo : FilePtr)
    (c : String) : Except Abort Unit := do
  let stmts ← liftExc (fe.parse_code file c)
  let ctx ← liftExc (fe.getContext argv0 file)
  liftExc (fe.realizeBlock ctx stmts fo)
  fmtPrint fo

/-- The `for` loop at lines 47-52 over the cases still to process. -/
def forCases {Stmts Ctx : Type} (fe : Frontend Stmts Ctx) (argv0 file : String) (fo : FilePtr) :
    List String → Except Abort Unit
  | [] => .ok ()
  | c :: cs => do
    runCase fe argv0 file fo c
    forCases fe argv0 file fo cs

/-- The `try` block of `parse`, lines 30-68. `fs file` is the contents of the file, `none` when
the stream cannot be opened, in which case the first `getline` fails; `writable` tells whether
`fopen` succeeds, and its result is used unchecked as in the source. The statements after
`exit(0)` are kept as they stand in the source. -/
def parseTry {Stmts Ctx : Type} (fe : Frontend Stmts Ctx) (fs : String → Option String)
    (writable : String → Bool) (argv0 file : String) : Except Abort ParsedModule := do
  let lines := match fs file with
    | some content => getlines content
    | none => []
  let cases := readCases lines
  let fo := fopen writable "tmp/out.htm"
  forCases fe argv0 file fo cases
  fclose fo
  let _ ← (Except.error (Abort.exit 0) : Except Abort Unit)
  let module := ParsedModule.new
  let module := module.setFileName file
  pure module

/-- How a call of `parse` ends: the process exits, the exception is thrown to the caller, a
value is returned, or the process dies on the null stream. -/
inductive Outcome where
  | exited (status : Int)
  | threw (e : SeqException)
  | returned (module : Option ParsedModule)
  | crashed
deriving DecidableEq, Repr

/-- Source function `parse(argv0, file, isCode, isTest)` of `parser.cpp`, lines 28-77: the `try`
block and its handler for `SeqException`. -/
def parse {Stmts Ctx : Type} (fe : Frontend Stmts Ctx) (fs : String → Option String)
    (writable : String → Bool) (argv0 file : String) (_isCode isTest : Bool) (d : Driver) :
    Outcome × Driver :=
  match parseTry fe fs writable argv0 file with
  | .ok module => (.returned (some module), d)
  | .error (.exit status) => (.exited status, d)
  | .error .crash => (.crashed, d)
  | .error (.raise e) =>
    if isTest then (.threw e, d)
    else (.returned none,
      compilationError d e.what e.getSrcInfo.file e.getSrcInfo.line e.getSrcInfo.col)

/-- The cases `parse` works on for a given file system and file name. -/
def casesOf (fs : String → Option String) (file : String) : List String :=
  readCases (match fs file with
    | some content => getlines content
    | none => [])

/-- The text of a segment: its lines in order, each followed by a newline. -/
def segmentText (seg : List String) : String :=
  String.join (seg.map fun line => line ++ "\n")

/-- The segments of the specification: the lines split at every line equal to `--`; every
segment closed by a separator is kept, the last one only when its text is non-empty. -/
def caseSegments (lines : List String) : List (List String) :=
  let segs := lines.splitOn "--"
  let trailing := segs.getLastD []
  segs.dropLast ++ (if segmentText trailing ≠ "" then [trailing] else [])

/-- Processing the cases in order raises `e`: some case raises it and the loop body went
through on every earlier case. -/
def Raises {Stmts Ctx : Type} (fe : Frontend Stmts Ctx) (argv0 file : String) (fo : FilePtr)
    (cases : List String) (e : SeqException) : Prop :=
  ∃ pre c post, cases = pre ++ c :: post ∧
    (∀ x ∈ pre, runCase fe argv0 file fo x = .ok ()) ∧
    runCase fe argv0 file fo c = .error (.raise e)

/-- A front end that rejects the case `bad` with a fixed error and accepts every other case. -/
def rejecting (bad : String) (e : SeqException) : Frontend Unit Unit where
  parse_code := fun _ c => if c = bad then .error e else .ok ()
  getContext := fun _ _ => .ok ()
  realizeBlock := fun _ _ _ => .ok ()

/-! ## Module front end: `seq.h` -/

/-- Modelled from the spec: the value map of a stage is not part of the sources. An output slot
of a pipeline is the unnamed default one or a numbered one. -/
inductive Slot where
  | default
  | numbered (idx : Nat)
deriving DecidableEq, Repr

/-- Modelled from the spec: the class `Pipeline` (`pipeline.h`) is not part of the sources. A
pipeline is its stages in composition order and the pipelines attached downstream, each with
the output slot it is attached to. -/
inductive Pipeline where
  | mk (stages : List String) (attached : List (Slot × Pipeline))

/-- The stages of a pipeline. -/
def Pipeline.stages : Pipeline → List String
  | .mk s _ => s

/-- The downstream attachments of a pipeline, oldest first. -/
def Pipeline.attached : Pipeline → List (Slot × Pipeline)
  | .mk _ a => a

/-- The pipelines attached to one output slot, oldest first. -/
def Pipeline.outputs (p : Pipeline) (s : Slot) : List Pipeline :=
  (p.attached.filter fun a => decide (a.1 = s)).map Prod.snd

/-- Attach `x` to the output slot `s` of `p`. -/
def Pipeline.attach (p : Pipeline) (s : Slot) (x : Pipeline) : Pipeline :=
  .mk p.stages (p.attached ++ [(s, x)])

/-- The struct `PipelineAggregator` of `seq.h`, lines 49-61, without the back pointer `base`:
the pipelines accumulated so far, oldest first. -/
structure PipelineAggregator where
  pipelines : List Pipeline

/-- The class `SeqModule` of `seq.h`, lines 76-120: the data members the claims are about. -/
structure SeqModule where
  standalone : Bool
  sources : List String
  main : PipelineAggregator
  once : PipelineAggregator
  last : PipelineAggregator

/-- Modelled from the spec: the one-argument overload `SeqModule::source(std::string)` is only
declared in `seq.h` (line 94); it registers one named input source, here by appending the name
to the member `sources`. -/
def SeqModule.source (m : SeqModule) (s : String) : SeqModule :=
  { m with sources := m.sources ++ [s] }

/-- The variadic template `SeqModule::source(std::string s, T... etc)` of `seq.h`, lines 97-102,
over any implementation `source` of the one-argument overload: `source(std::move(s))` and then
`source(etc...)`, which is the one-argument overload again once a single name is left, the
overload resolution of C++ preferring the non-template function. -/
def sourceVariadic {M : Type} (source : M → String → M) (m : M) : String → List String → M
  | s, [] => source m s
  | s, t :: etc => sourceVariadic source (source m s) t etc

/-! ## Codegen visitor: `codegen.h` -/

/-- The expression classes for which `CodegenVisitor` declares `void visit(T *) override`,
`codegen.h` lines 49-62, in declaration order. -/
def exprVisitOverrides : List String :=
  ["BoolExpr", "IntExpr", "FloatExpr", "StringExpr", "IdExpr", "IfExpr", "CallExpr",
   "StackAllocExpr", "DotExpr", "PtrExpr", "YieldExpr", "StmtExpr", "PipeExpr", "EllipsisExpr"]

/-- The statement classes for which `CodegenVisitor` declares `void visit(T *) override`,
`codegen.h` lines 64-80, in declaration order. -/
def stmtVisitOverrides : List String :=
  ["SuiteStmt", "PassStmt", "BreakStmt", "ContinueStmt", "ExprStmt", "AssignStmt",
   "AssignMemberStmt", "ReturnStmt", "YieldStmt", "WhileStmt", "ForStmt", "IfStmt",
   "UpdateStmt", "TryStmt", "ThrowStmt", "FunctionStmt", "ClassStmt"]

/-- The member function of `CodegenVisitor` that ends up handling a node. -/
inductive Handler where
  | visit (nodeClass : String)
  | defaultVisitExpr
  | defaultVisitStmt
deriving DecidableEq, Repr

/-- Modelled from the spec: the base class `CallbackASTVisitor` (`visitor.h`) is not part of the
sources. Double dispatch of an expression node of class `c` ends in the override of `visit` for
that class when `codegen.h` declares one, otherwise in the inherited `visit`, which falls back
to `defaultVisit(Expr *)` (line 32). -/
def dispatchExpr (c : String) : Handler :=
  if c ∈ exprVisitOverrides then .visit c else .defaultVisitExpr

/-- Modelled from the spec: double dispatch of a statement node of class `c`, the base class
being absent from the sources, with fallback `defaultVisit(Stmt *)` (line 33). -/
def dispatchStmt (c : String) : Handler :=
  if c ∈ stmtVisitOverrides then .visit c else .defaultVisitStmt

/-- The expression kinds of the canonical tree, as the specification lists them. -/
inductive ExprKind where
  | literal | identifier | call | conditional | memberAccess | pointerOrStackAlloc
  | pipe | yield | statementExpression | ellipsisPlaceholder
deriving DecidableEq, Repr

/-- The statement kinds of the canonical tree, as the specification lists them. -/
inductive StmtKind where
  | block | pass | break_ | continue_ | expressionStatement | assignment | memberAssignment
  | return_ | yield | while_ | for_ | if_ | update | tryOrThrow | functionOrClassDecl
deriving DecidableEq, Repr

/-- Modelled from the spec: the AST class declarations (`parser/ast.h`) are not part of the
sources, so the node classes that make up each listed expression kind are read off the class
names. -/
def ExprKind.classes : ExprKind → List String
  | .literal => ["BoolExpr", "IntExpr", "FloatExpr", "StringExpr"]
  | .identifier => ["IdExpr"]
  | .call => ["CallExpr"]
  | .conditional => ["IfExpr"]
  | .memberAccess => ["DotExpr"]
  | .pointerOrStackAlloc => ["PtrExpr", "StackAllocExpr"]
  | .pipe => ["PipeExpr"]
  | .yield => ["YieldExpr"]
  | .statementExpression => ["StmtExpr"]
  | .ellipsisPlaceholder => ["EllipsisExpr"]

/-- Modelled from the spec: the node classes that make up each listed statement kind, read off
the class names, the AST class declarations being absent from the sources. -/
def StmtKind.classes : StmtKind → List String
  | .block => ["SuiteStmt"]
  | .pass => ["PassStmt"]
  | .break_ => ["BreakStmt"]
  | .continue_ => ["ContinueStmt"]
  | .expressionStatement => ["ExprStmt"]
  | .assignment => ["AssignStmt"]
  | .memberAssignment => ["AssignMemberStmt"]
  | .return_ => ["ReturnStmt"]
  | .yield => ["YieldStmt"]
  | .while_ => ["WhileStmt"]
  | .for_ => ["ForStmt"]
  | .if_ => ["IfStmt"]
  | .update => ["UpdateStmt"]
  | .tryOrThrow => ["TryStmt", "ThrowStmt"]
  | .functionOrClassDecl => ["FunctionStmt", "ClassStmt"]

/-! ## Realization cache (specification §3, §4.2) -/

/-- Modelled from the spec: the type model is not part of the sources. A bound concrete type is
an atomic type, or a realized class named by its cache handle. -/
inductive Ty where
  | atomic (name : String)
  | realized (handle : Nat)
deriving DecidableEq, Repr

/-- A type as written inside a generic body: a type parameter of the enclosing entity, by
position, or a concrete type. -/
inductive TyExpr where
  | param (i : Nat)
  | concrete (t : Ty)
deriving DecidableEq, Repr

/-- Modelled from the spec: a generic entity is its identity, the number of its type parameters
and the generic references its body makes, each an entity identity with type arguments over the
parameters. -/
structure Generic where
  id : Nat
  arity : Nat
  refs : List (Nat × List TyExpr)
deriving DecidableEq, Repr

/-- Modelled from the spec: a realized entity as the cache stores it is its realization key, the
generic identity with the ordered bound types, and the references of its body after
substitution. -/
structure Realized where
  id : Nat
  args : List Ty
  refs : List (Nat × List Ty)
deriving DecidableEq, Repr

/-- Modelled from the spec: the realization cache is an arena of realized entities; the handle
of an entity is its position. -/
abbrev Cache := List Realized

/-- The errors `realize` can raise; `outOfFuel` stands for a realization that has not finished
within the given recursion depth. -/
inductive RealizeError where
  | typeMismatch
  | notFound
  | outOfFuel
deriving DecidableEq, Repr

/-- The handle stored for a key, if any: the first entry with that key. -/
def Cache.lookup : Cache → Nat → List Ty → Option Nat
  | [], _, _ => none
  | r :: rest, id, args =>
    if r.id = id ∧ r.args = args then some 0
    else (Cache.lookup rest id args).map (· + 1)

/-- Substitution of the bound arguments in one type; `none` when a parameter has no bound
argument. -/
def substTy (args : List Ty) : TyExpr → Option Ty
  | .param i => args.get? i
  | .concrete t => some t

/-- Substitution of the bound arguments throughout the references of a body. -/
def substRefs (args : List Ty) : List (Nat × List TyExpr) → Option (List (Nat × List Ty))
  | [] => some []
  | (id, es) :: rest =>
    match es.mapM (substTy args), substRefs args rest with
    | some ts, some rs => some ((id, ts) :: rs)
    | _, _ => none

/-- Realizing the references of a body one after the other with `step`, threading the cache;
the first error ends it. -/
def realizeRefs (step : Cache → Nat → List Ty → Except RealizeError (Nat × Cache)) :
    Cache → List (Nat × List Ty) → Except RealizeError Cache
  | c, [] => .ok c
  | c, (id, args) :: rest =>
    match step c id args with
    | .error e => .error e
    | .ok r => realizeRefs step r.2 rest

/-- Modelled from the spec: the realization cache itself is not part of the sources, which only
call into it (`parser.cpp` line 50). `realize(entity, boundArgs)` looks the key up and returns
the stored entity on a hit; on a miss it checks the argument count, substitutes the arguments
throughout a copy of the body, inserts the result into the cache and only then realizes the
nested generic references, and returns the new entity. `env` resolves entity identities and
`fuel` bounds the depth of nested realization. -/
def realize (env : List Generic) :
    Nat → Cache → Nat → List Ty → Except RealizeError (Nat × Cache)
  | 0, cache, id, args =>
    match cache.lookup id args with
    | some h => .ok (h, cache)
    | none => .error .outOfFuel
  | fuel + 1, cache, id, args =>
    match cache.lookup id args with
    | some h => .ok (h, cache)
    | none =>
      match env.find? (fun g => decide (g.id = id)) with
      | none => .error .notFound
      | some g =>
        if g.arity ≠ args.length then .error .typeMismatch
        else
          match substRefs args g.refs with
          | none => .error .typeMismatch
          | some body =>
            let inserted := cache ++ [⟨id, args, body⟩]
            match realizeRefs (realize env fuel) inserted body with
            | .error e => .error e
            | .ok cache' => .ok (cache.length, cache')

/-- A generic list class whose body refers to itself at its own parameter, and a generic pair
whose body refers to the list at each of its two parameters. -/
def sampleEnv : List Generic :=
  [⟨0, 1, [(0, [.param 0])]⟩, ⟨1, 2, [(0, [.param 0]), (0, [.param 1])]⟩]

/-! ## Function realization in the codegen visitor (specification §4.4) -/

/-- Modelled from the spec: the IR classes (`sir/sir.h`) are not part of the sources. An IR
function of the emitted module is known by the name of the realized function it was generated
for. -/
structure IRFunc where
  name : String
deriving DecidableEq, Repr

/-- Modelled from the spec: `CodegenContext` (`codegen_ctx.h`) is not part of the sources. The
part `realizeFunc` works on is the functions of the IR module in emission order, and the memo
table from realized names to positions in the module. -/
structure CodegenContext where
  module : List IRFunc
  functions : List (String × Nat)
deriving DecidableEq, Repr

/-- The codegen context at the start of a run: an empty module, nothing memoized. -/
def CodegenContext.init : CodegenContext := ⟨[], []⟩

/-- Modelled from the spec: `CodegenVisitor::realizeFunc` is only declared in `codegen.h`
(line 35). `realizeFunc(name)` looks the name up in the memo table and returns the function
found; when there is none it generates the IR function, appends it to the module, memoizes it
under the name and returns it. The result is the function's position in the module. -/
def realizeFunc (ctx : CodegenContext) (name : String) : Nat × CodegenContext :=
  match ctx.functions.lookup name with
  | some f => (f, ctx)
  | none =>
    (ctx.module.length,
      { module := ctx.module ++ [⟨name⟩]
        functions := ctx.functions ++ [(name, ctx.module.length)] })

/-- The context after the visitor has met the given call sites in order, each one calling
`realizeFunc` on the name it references. -/
def visitCallSites (ctx : CodegenContext) (sites : List String) : CodegenContext :=
  sites.foldl (fun c name => (realizeFunc c name).2) ctx

/-- The number of IR functions the module holds for a realized name. -/
def emittedFor (ctx : CodegenContext) (name : String) : Nat :=
  (ctx.module.filter fun f => decide (f.name = name)).length

/-- The memo table lists the names of the functions of the module, in order and without
repeats. -/
def CodegenContext.Consistent (ctx : CodegenContext) : Prop :=
  ctx.functions.map Prod.fst = ctx.module.map IRFunc.name ∧ (ctx.module.map IRFunc.name).Nodup

instance (ctx : CodegenContext) : Decidable ctx.Consistent := by
  unfold CodegenContext.Consistent
  infer_instance

/-! ## Indexed composition (specification §4.5) -/

/-- The three aggregators a module owns. -/
inductive Phase where
  | main
  | once
  | last
deriving DecidableEq, Repr

/-- The aggregator of a module for a phase. -/
def SeqModule.aggregator (m : SeqModule) : Phase → PipelineAggregator
  | .main => m.main
  | .once => m.once
  | .last => m.last

/-- The module with the aggregator of one phase replaced. -/
def SeqModule.setAggregator (m : SeqModule) (ph : Phase) (a : PipelineAggregator) : SeqModule :=
  match ph with
  | .main => { m with main := a }
  | .once => { m with once := a }
  | .last => { m with last := a }

/-- The struct `PipelineAggregatorProxy` of `seq.h`, lines 63-74: the aggregator referred to,
here by its phase in the owning module, and the index. -/
structure PipelineAggregatorProxy where
  aggr : Phase
  idx : Nat
deriving DecidableEq, Repr

/-- Modelled from the spec: `PipelineAggregator::addWithIndex` is only declared in `seq.h`
(line 54). It attaches `to_`, the parameter `to` of the declaration, to the output slot numbered
`idx` of the most recently added pipeline of the aggregator and returns the composed pipeline
with the updated aggregator; with no pipeline added yet there is nothing to attach to and the
result is `none`. The flag `addFull`, on which the specification is silent, is left at its
default. -/
def PipelineAggregator.addWithIndex (a : PipelineAggregator) (to_ : Pipeline) (idx : Nat) :
    Option (Pipeline × PipelineAggregator) :=
  match a.pipelines.getLast? with
  | none => none
  | some recent =>
    let full := recent.attach (.numbered idx) to_
    some (full, ⟨a.pipelines.dropLast ++ [full]⟩)

/-- Modelled from the spec: `PipelineAggregatorProxy::operator|(Pipeline)` is only declared in
`seq.h` (line 68); `aggregator[idx] | to_` delegates to `addWithIndex(to_, idx)` on the
aggregator the proxy refers to. -/
def PipelineAggregatorProxy.pipe (m : SeqModule) (px : PipelineAggregatorProxy) (to_ : Pipeline) :
    Option (Pipeline × SeqModule) :=
  match (m.aggregator px.aggr).addWithIndex to_ px.idx with
  | none => none
  | some r => some (r.1, m.setAggregator px.aggr r.2)

/-- A module with one pipeline in each aggregator and one source. -/
def sampleModule : SeqModule :=
  { standalone := false
    sources := ["reads"]
    main := ⟨[.mk ["M"] []]⟩
    once := ⟨[.mk ["O"] []]⟩
    last := ⟨[.mk ["L"] []]⟩ }

/-! ## Theorems -/

/-! ### Splitting the file into cases -/

theorem join_cons (s : String) (ss : List String) :
    String.join (s :: ss) = s ++ String.join ss := by
  apply String.ext
  simp [String.join_eq]

theorem segmentText_nil : segmentText [] = "" := rfl

theorem segmentText_cons (l : String) (seg : List String) :
    segmentText (l :: seg) = (l ++ "\n") ++ segmentText seg := by
  simp [segmentText, join_cons]

theorem segmentText_eq_empty (seg : List String) : segmentText seg = "" ↔ seg = [] := by
  cases seg with
  | nil => simp [segmentText_nil]
  | cons l seg =>
    simp only [segmentText_cons, reduceCtorEq, iff_false]
    intro h
    have := congrArg String.length h
    simp only [String.length_append] at this
    have h1 : "\n".length = 1 := rfl
    have h0 : "".length = 0 := rfl
    omega

theorem string_length_ne_zero (s : String) : s.length ≠ 0 ↔ s ≠ "" := by
  constructor
  · rintro h rfl; exact h rfl
  · intro h h0
    apply h
    apply String.ext
    exact List.length_eq_zero.mp h0

/-- The loop against `List.splitOn`: with `current` the text read since the last separator. -/
theorem splitLoop_eq (lines : List String) : ∀ (cases : List String) (current : String),
    splitLoop lines cases current =
      (cases ++ (((lines.splitOn "--").map segmentText).modifyHead (current ++ ·)).dropLast,
        (((lines.splitOn "--").map segmentText).modifyHead (current ++ ·)).getLastD "") := by
  induction lines with
  | nil => intro cases current; simp [splitLoop, List.splitOn, List.splitOnP_nil, segmentText_nil]
  | cons line rest ih =>
    intro cases current
    have hne : rest.splitOn "--" ≠ [] := List.splitOnP_ne_nil _ _
    obtain ⟨h, t, ht⟩ := List.exists_cons_of_ne_nil hne
    have hsp : (line :: rest).splitOn "--" =
        if line = "--" then [] :: rest.splitOn "--"
        else (rest.splitOn "--").modifyHead (List.cons line) := by
      simp [List.splitOn, List.splitOnP_cons]
    rw [hsp]
    by_cases hl : line = "--"
    · simp [splitLoop, hl, ih, ht, segmentText_nil, List.dropLast]
    · simp [splitLoop, hl, ih, ht, segmentText_cons, String.append_assoc]

theorem map_dropLast_aux {α β : Type} (f : α → β) (l : List α) :
    (l.map f).dropLast = l.dropLast.map f := by
  induction l with
  | nil => rfl
  | cons a l ih =>
    cases l with
    | nil => rfl
    | cons b l => simp [List.dropLast]

theorem getLastD_map_segmentText (segs : List (List String)) (h : segs ≠ []) :
    (segs.map segmentText).getLastD "" = segmentText (segs.getLastD []) := by
  induction segs with
  | nil => exact absurd rfl h
  | cons a l ih =>
    cases l with
    | nil => rfl
    | cons b l => simpa using ih (by simp)

theorem readCases_eq_map (lines : List String) :
    readCases lines = (caseSegments lines).map segmentText := by
  have hne : lines.splitOn "--" ≠ [] := List.splitOnP_ne_nil _ _
  have hmod : ((lines.splitOn "--").map segmentText).modifyHead ("" ++ ·)
      = (lines.splitOn "--").map segmentText := by
    cases lines.splitOn "--" <;> simp
  simp only [readCases, splitLoop_eq, hmod, List.nil_append, string_length_ne_zero,
    getLastD_map_segmentText _ hne, caseSegments, map_dropLast_aux]
  split <;> simp

theorem length_splitOn (lines : List String) :
    (lines.splitOn "--").length = lines.count "--" + 1 := by
  induction lines with
  | nil => simp [List.splitOn, List.splitOnP_nil]
  | cons line rest ih =>
    have hsp : (line :: rest).splitOn "--" =
        if line = "--" then [] :: rest.splitOn "--"
        else (rest.splitOn "--").modifyHead (List.cons line) := by
      simp [List.splitOn, List.splitOnP_cons]
    rw [hsp]
    by_cases hl : line = "--"
    · simp [hl, ih]
    · have hlen : ((rest.splitOn "--").modifyHead (List.cons line)).length
          = (rest.splitOn "--").length := by
        cases rest.splitOn "--" <;> simp
      have hl2 : ¬ "--" = line := fun h => hl h.symm
      simp [hl, hl2, hlen, ih, List.count_cons]

theorem not_mem_of_mem_splitOn (lines : List String) :
    ∀ seg ∈ lines.splitOn "--", "--" ∉ seg := by
  induction lines with
  | nil => simp [List.splitOn, List.splitOnP_nil]
  | cons line rest ih =>
    have hsp : (line :: rest).splitOn "--" =
        if line = "--" then [] :: rest.splitOn "--"
        else (rest.splitOn "--").modifyHead (List.cons line) := by
      simp [List.splitOn, List.splitOnP_cons]
    rw [hsp]
    by_cases hl : line = "--"
    · simp only [hl, if_true, List.mem_cons]
      rintro seg (rfl | h)
      · simp
      · exact ih seg h
    · simp only [hl, if_false]
      intro seg hseg
      cases hr : rest.splitOn "--" with
      | nil => simp [hr] at hseg
      | cons a t =>
        rw [hr] at ih hseg
        simp only [List.modifyHead, List.mem_cons] at hseg
        rcases hseg with rfl | h
        · simp only [List.mem_cons, not_or]
          exact ⟨fun h => hl h.symm, ih a (by simp)⟩
        · exact ih seg (by simp [h])

theorem mem_caseSegments (lines : List String) (seg : List String)
    (h : seg ∈ caseSegments lines) : seg ∈ lines.splitOn "--" := by
  have hne : lines.splitOn "--" ≠ [] := List.splitOnP_ne_nil _ _
  simp only [caseSegments, List.mem_append] at h
  rcases h with h | h
  · exact List.dropLast_subset _ h
  · split at h
    · simp only [List.mem_singleton] at h
      rw [h, List.getLastD_eq_getLast?, List.getLast?_eq_getLast _ hne]
      exact List.getLast_mem hne
    · simp at h

theorem getlineAux_line (l rest : List Char) (h : '\n' ∉ l) : ∀ (cur : List Char) (any : Bool),
    getlineAux (l ++ '\n' :: rest) cur any = String.mk (cur ++ l) :: getlineAux rest [] false := by
  induction l with
  | nil => intro cur any; simp [getlineAux]
  | cons c l ih =>
    intro cur any
    have hc : c ≠ '\n' := fun e => h (by simp [e])
    have hl : '\n' ∉ l := fun e => h (by simp [e])
    simp [getlineAux, hc, ih hl]

theorem getlines_segmentText (seg : List String) (h : ∀ l ∈ seg, '\n' ∉ l.data) :
    getlines (segmentText seg) = seg := by
  induction seg with
  | nil => rfl
  | cons l seg ih =>
    have hl : '\n' ∉ l.data := h l (by simp)
    have hs : getlines (segmentText seg) = seg := ih (fun x hx => h x (by simp [hx]))
    have hd : (segmentText (l :: seg)).data = l.data ++ '\n' :: (segmentText seg).data := by
      simp [segmentText_cons]
    unfold getlines at hs ⊢
    rw [hd, getlineAux_line _ _ hl, hs]
    simp

theorem mem_of_mem_splitOn (lines : List String) :
    ∀ seg ∈ lines.splitOn "--", ∀ l ∈ seg, l ∈ lines := by
  induction lines with
  | nil => simp [List.splitOn, List.splitOnP_nil]
  | cons line rest ih =>
    have hsp : (line :: rest).splitOn "--" =
        if line = "--" then [] :: rest.splitOn "--"
        else (rest.splitOn "--").modifyHead (List.cons line) := by
      simp [List.splitOn, List.splitOnP_cons]
    rw [hsp]
    by_cases hl : line = "--"
    · simp only [hl, if_true, List.mem_cons]
      rintro seg (rfl | h) l hlseg
      · simp at hlseg
      · exact Or.inr (ih seg h l hlseg)
    · simp only [hl, if_false]
      intro seg hseg l hlseg
      cases hr : rest.splitOn "--" with
      | nil => simp [hr] at hseg
      | cons a t =>
        rw [hr] at ih hseg
        simp only [List.modifyHead, List.mem_cons] at hseg
        rcases hseg with rfl | h
        · simp only [List.mem_cons] at hlseg
          rcases hlseg with rfl | h2
          · simp
          · exact List.mem_cons_of_mem _ (ih a (by simp) l h2)
        · exact List.mem_cons_of_mem _ (ih seg (by simp [h]) l hlseg)

/-- C8. The cases `parse` builds are the segments of the input split at every `--` line, each
rendered as its lines followed by newlines, closed segments always kept and the trailing one
kept iff non-empty; their number is the number of `--` lines plus one when the trailing segment
is non-empty; no segment holds a `--` line, and reading a case back line by line (lines as
`getline` delivers them, free of newlines) yields no `--` line. -/
theorem parse_cases_split (lines : List String) :
    readCases lines = (caseSegments lines).map segmentText ∧
    (readCases lines).length = lines.count "--" +
      (if segmentText ((lines.splitOn "--").getLastD []) ≠ "" then 1 else 0) ∧
    (∀ seg ∈ caseSegments lines, "--" ∉ seg) ∧
    ((∀ l ∈ lines, '\n' ∉ l.data) → ∀ c ∈ readCases lines, "--" ∉ getlines c) := by
  refine ⟨readCases_eq_map lines, ?_, ?_, ?_⟩
  · rw [readCases_eq_map, List.length_map]
    have hlen := length_splitOn lines
    simp only [caseSegments, List.length_append, List.length_dropLast, hlen]
    split <;> simp
  · intro seg hseg
    exact not_mem_of_mem_splitOn lines seg (mem_caseSegments lines seg hseg)
  · intro hnl c hc
    rw [readCases_eq_map] at hc
    obtain ⟨seg, hseg, rfl⟩ := List.mem_map.mp hc
    have hin := mem_caseSegments lines seg hseg
    rw [getlines_segmentText seg (fun l hl => hnl l (mem_of_mem_splitOn lines seg hin l hl))]
    exact not_mem_of_mem_splitOn lines seg hin

/-- C8 at a concrete file: three separators, an empty closed segment and an empty tail. -/
theorem parse_cases_split_witness :
    readCases ["a", "--", "--", "b", "c", "--"] = ["a\n", "", "b\nc\n"] ∧
    (∀ c ∈ readCases ["a", "--", "--", "b", "c", "--"], "--" ∉ getlines c) := by
  refine ⟨by decide, ?_⟩
  exact (parse_cases_split ["a", "--", "--", "b", "c", "--"]).2.2.2 (by decide)

/-! ### Outcomes of `parse`, `compile` and `execute` -/

theorem forCases_ok {Stmts Ctx : Type} (fe : Frontend Stmts Ctx) (argv0 file : String)
    (fo : FilePtr) (cases : List String)
    (h : ∀ c ∈ cases, runCase fe argv0 file fo c = .ok ()) :
    forCases fe argv0 file fo cases = .ok () := by
  induction cases with
  | nil => rfl
  | cons c cs ih =>
    have hc := h c (by simp)
    have hcs := ih (fun x hx => h x (by simp [hx]))
    simp [forCases, hc, hcs, bind, Except.bind]

theorem forCases_abort {Stmts Ctx : Type} (fe : Frontend Stmts Ctx) (argv0 file : String)
    (fo : FilePtr) (pre : List String) (c : String) (post : List String) (a : Abort)
    (hpre : ∀ x ∈ pre, runCase fe argv0 file fo x = .ok ())
    (hc : runCase fe argv0 file fo c = .error a) :
    forCases fe argv0 file fo (pre ++ c :: post) = .error a := by
  induction pre with
  | nil => simp [forCases, hc, bind, Except.bind]
  | cons p pre ih =>
    have hp := hpre p (by simp)
    have := ih (fun x hx => hpre x (by simp [hx]))
    simp [forCases, hp, bind, Except.bind, this]

/-- On an open stream the loop body goes through or raises. -/
theorem runCase_open {Stmts Ctx : Type} (fe : Frontend Stmts Ctx) (argv0 file path c : String) :
    runCase fe argv0 file (some path) c = .ok () ∨
      ∃ e, runCase fe argv0 file (some path) c = .error (.raise e) := by
  unfold runCase
  cases fe.parse_code file c with
  | error e => exact Or.inr ⟨e, rfl⟩
  | ok stmts =>
    cases fe.getContext argv0 file with
    | error e => exact Or.inr ⟨e, rfl⟩
    | ok ctx =>
      cases h : fe.realizeBlock ctx stmts (some path) with
      | error e => exact Or.inr ⟨e, by simp [liftExc, bind, Except.bind, h]⟩
      | ok u => exact Or.inl (by simp [liftExc, bind, Except.bind, h, fmtPrint])

/-- On an open stream either every case goes through, or the run raises at a first failing
case. -/
theorem allOk_or_raises {Stmts Ctx : Type} (fe : Frontend Stmts Ctx) (argv0 file path : String)
    (cases : List String) :
    (∀ c ∈ cases, runCase fe argv0 file (some path) c = .ok ()) ∨
      ∃ e, Raises fe argv0 file (some path) cases e := by
  induction cases with
  | nil => left; simp
  | cons c cs ih =>
    rcases runCase_open fe argv0 file path c with hc | ⟨e, hc⟩
    · rcases ih with h | ⟨e, pre, x, post, hcs, hpre, hx⟩
      · left
        intro y hy
        rcases List.mem_cons.mp hy with rfl | hy
        · exact hc
        · exact h y hy
      · right
        refine ⟨e, c :: pre, x, post, by simp [hcs], ?_, hx⟩
        intro y hy
        rcases List.mem_cons.mp hy with rfl | hy
        · exact hc
        · exact hpre y hy
    · right; exact ⟨e, [], c, cs, rfl, by simp, hc⟩

theorem not_allOk_of_raises {Stmts Ctx : Type} (fe : Frontend Stmts Ctx) (argv0 file : String)
    (fo : FilePtr) (cases : List String) (e : SeqException)
    (h : Raises fe argv0 file fo cases e) :
    ¬ ∀ c ∈ cases, runCase fe argv0 file fo c = .ok () := by
  obtain ⟨pre, c, post, rfl, _, hc⟩ := h
  intro hall
  have := hall c (by simp)
  rw [hc] at this
  cases this

theorem parseTry_eq {Stmts Ctx : Type} (fe : Frontend Stmts Ctx) (fs : String → Option String)
    (writable : String → Bool) (argv0 file : String) :
    parseTry fe fs writable argv0 file =
      match forCases fe argv0 file (fopen writable "tmp/out.htm") (casesOf fs file) with
      | .ok _ =>
        (match fclose (fopen writable "tmp/out.htm") with
          | .ok _ => .error (.exit 0)
          | .error a => .error a)
      | .error a => .error a := by
  unfold parseTry casesOf
  simp only [bind, Except.bind, pure, Except.pure]
  cases forCases fe argv0 file _ _ with
  | error a => rfl
  | ok u => cases fclose (fopen writable "tmp/out.htm") <;> rfl

theorem parse_of_allOk {Stmts Ctx : Type} (fe : Frontend Stmts Ctx) (fs : String → Option String)
    (writable : String → Bool) (argv0 file : String) (isCode isTest : Bool) (d : Driver)
    (hw : writable "tmp/out.htm" = true)
    (h : ∀ c ∈ casesOf fs file,
      runCase fe argv0 file (fopen writable "tmp/out.htm") c = .ok ()) :
    parse fe fs writable argv0 file isCode isTest d = (.exited 0, d) := by
  have hfo : fclose (fopen writable "tmp/out.htm") = .ok () := by simp [fopen, hw, fclose]
  simp [parse, parseTry_eq, forCases_ok fe argv0 file _ _ h, hfo]

theorem parse_of_raises {Stmts Ctx : Type} (fe : Frontend Stmts Ctx) (fs : String → Option String)
    (writable : String → Bool) (argv0 file : String) (isCode isTest : Bool) (d : Driver)
    (e : SeqException)
    (h : Raises fe argv0 file (fopen writable "tmp/out.htm") (casesOf fs file) e) :
    parse fe fs writable argv0 file isCode isTest d =
      if isTest then (.threw e, d)
      else (.returned none,
        compilationError d e.what e.getSrcInfo.file e.getSrcInfo.line e.getSrcInfo.col) := by
  obtain ⟨pre, c, post, hcs, hpre, hc⟩ := h
  simp [parse, parseTry_eq, hcs, forCases_abort fe argv0 file _ pre c post _ hpre hc]

/-- The `try` block never completes normally, so `parse` never returns a module, whatever the
file, the flags and the state of the output stream. -/
theorem parse_never_returns_module {Stmts Ctx : Type} (fe : Frontend Stmts Ctx)
    (fs : String → Option String) (writable : String → Bool) (argv0 file : String)
    (isCode isTest : Bool) (d : Driver) :
    (∀ m, parseTry fe fs writable argv0 file ≠ .ok m) ∧
    (∀ m, (parse fe fs writable argv0 file isCode isTest d).1 ≠ .returned (some m)) := by
  have hnever : ∀ m, parseTry fe fs writable argv0 file ≠ .ok m := by
    intro m
    rw [parseTry_eq]
    cases forCases fe argv0 file _ (casesOf fs file) with
    | error a => simp
    | ok u => cases fclose (fopen writable "tmp/out.htm") <;> simp
  refine ⟨hnever, ?_⟩
  intro m
  unfold parse
  cases hp : parseTry fe fs writable argv0 file with
  | ok m2 => exact absurd hp (hnever m2)
  | error a =>
    cases a with
    | exit s => simp
    | crash => simp
    | raise e => cases isTest <;> simp

/-- When `tmp/out.htm` can be opened, a call of `parse` ends in exactly one of three ways: every
case goes through and the process exits with status 0; an exception is raised with `isTest` set
and is rethrown; an exception is raised with `isTest` clear, one diagnostic is recorded and null
is returned. An empty or unreadable file has no cases and exits with 0. -/
theorem parse_outcomes_of_open {Stmts Ctx : Type} (fe : Frontend Stmts Ctx)
    (fs : String → Option String) (writable : String → Bool) (argv0 file : String)
    (isCode isTest : Bool) (d : Driver) (hw : writable "tmp/out.htm" = true) :
    (((∀ c ∈ casesOf fs file,
          runCase fe argv0 file (fopen writable "tmp/out.htm") c = .ok ()) ∧
        parse fe fs writable argv0 file isCode isTest d = (.exited 0, d)) ∨
      (∃ e, Raises fe argv0 file (fopen writable "tmp/out.htm") (casesOf fs file) e ∧
        isTest = true ∧ parse fe fs writable argv0 file isCode isTest d = (.threw e, d)) ∨
      (∃ e, Raises fe argv0 file (fopen writable "tmp/out.htm") (casesOf fs file) e ∧
        isTest = false ∧
        parse fe fs writable argv0 file isCode isTest d = (.returned none,
          compilationError d e.what e.getSrcInfo.file e.getSrcInfo.line e.getSrcInfo.col))) ∧
    ¬ ((∀ c ∈ casesOf fs file,
          runCase fe argv0 file (fopen writable "tmp/out.htm") c = .ok ()) ∧
        ∃ e, Raises fe argv0 file (fopen writable "tmp/out.htm") (casesOf fs file) e) ∧
    ((fs file = none ∨ fs file = some "") →
      casesOf fs file = [] ∧
      parse fe fs writable argv0 file isCode isTest d = (.exited 0, d)) := by
  have hfo : fopen writable "tmp/out.htm" = some "tmp/out.htm" := by simp [fopen, hw]
  refine ⟨?_, ?_, ?_⟩
  · have hor := allOk_or_raises fe argv0 file "tmp/out.htm" (casesOf fs file)
    rw [← hfo] at hor
    rcases hor with h | ⟨e, h⟩
    · exact Or.inl ⟨h, parse_of_allOk fe fs writable argv0 file isCode isTest d hw h⟩
    · have hp := parse_of_raises fe fs writable argv0 file isCode isTest d e h
      cases isTest with
      | true => exact Or.inr (Or.inl ⟨e, h, rfl, by simpa using hp⟩)
      | false => exact Or.inr (Or.inr ⟨e, h, rfl, by simpa using hp⟩)
  · rintro ⟨hall, e, he⟩
    exact not_allOk_of_raises fe argv0 file _ _ e he hall
  · intro hfile
    have hc : casesOf fs file = [] := by
      rcases hfile with h | h <;> simp [casesOf, h] <;> rfl
    refine ⟨hc, parse_of_allOk fe fs writable argv0 file isCode isTest d hw ?_⟩
    simp [hc]

/-- C1. `compile` and `execute` never let a `SeqException` out: each ends normally with the
debug flag set, and the diagnostics log has grown by exactly one call
`compilationError(e.what(), file, line, col)` when the module method raised `e`, and by nothing
when it did not. -/
theorem compile_execute_funnel (mm : ModuleMethods) (module : ParsedModule) (out : String)
    (args libs : List String) (debug : Bool) (d : Driver) :
    compile mm module out debug d = .ok
      { debug := debug
        diagnostics := d.diagnostics ++
          match mm.compile module out with
          | .ok _ => []
          | .error e => [⟨e.what, e.getSrcInfo.file, e.getSrcInfo.line, e.getSrcInfo.col⟩] } ∧
    execute mm module args libs debug d = .ok
      { debug := debug
        diagnostics := d.diagnostics ++
          match mm.execute module args libs with
          | .ok _ => []
          | .error e => [⟨e.what, e.getSrcInfo.file, e.getSrcInfo.line, e.getSrcInfo.col⟩] } := by
  constructor
  · unfold compile
    cases mm.compile module out <;> simp [compilationError]
  · unfold execute
    cases mm.execute module args libs <;> simp [compilationError]

/-- C2, as stated, fails: with `isTest` set, the exception raised on the case `bad` leaves
`parse` again, no diagnostic is recorded and nothing is returned. -/
theorem parse_isTest_rethrows :
    Raises (rejecting "bad\n" ⟨"syntax error", ⟨"t.seq", 3, 1⟩⟩) "seqc" "t.seq"
      (fopen (fun _ => true) "tmp/out.htm")
      (casesOf (fun _ => some "ok\n--\nbad\n") "t.seq") ⟨"syntax error", ⟨"t.seq", 3, 1⟩⟩ ∧
    parse (rejecting "bad\n" ⟨"syntax error", ⟨"t.seq", 3, 1⟩⟩) (fun _ => some "ok\n--\nbad\n")
      (fun _ => true) "seqc" "t.seq" false true ⟨false, []⟩
      = (.threw ⟨"syntax error", ⟨"t.seq", 3, 1⟩⟩, ⟨false, []⟩) := by
  refine ⟨⟨["ok\n"], "bad\n", [], by decide, ?_, ?_⟩, by decide⟩
  · intro x hx
    rw [List.mem_singleton.mp hx]
    rfl
  · rfl

/-- C2, amended. When `isTest` is false and processing the cases raises `e`, `parse` returns
the null module to its caller and records exactly `compilationError(e.what(), file, line, col)`,
for every file and every value of `isCode`. -/
theorem parse_catches_when_not_test {Stmts Ctx : Type} (fe : Frontend Stmts Ctx)
    (fs : String → Option String) (writable : String → Bool) (argv0 file : String)
    (isCode : Bool) (d : Driver) (e : SeqException)
    (h : Raises fe argv0 file (fopen writable "tmp/out.htm") (casesOf fs file) e) :
    parse fe fs writable argv0 file isCode false d =
      (.returned none,
        compilationError d e.what e.getSrcInfo.file e.getSrcInfo.line e.getSrcInfo.col) := by
  rw [parse_of_raises fe fs writable argv0 file isCode false d e h]
  simp

/-- C2, amended, at a concrete file whose second case is rejected. -/
theorem parse_catches_when_not_test_witness :
    casesOf (fun _ => some "ok\n--\nbad\n") "t.seq" = ["ok\n", "bad\n"] ∧
    parse (rejecting "bad\n" ⟨"syntax error", ⟨"t.seq", 3, 1⟩⟩) (fun _ => some "ok\n--\nbad\n")
      (fun _ => true) "seqc" "t.seq" true false ⟨false, []⟩
      = (.returned none, ⟨false, [⟨"syntax error", "t.seq", 3, 1⟩]⟩) :=
  ⟨by decide, parse_catches_when_not_test (rejecting "bad\n" ⟨"syntax error", ⟨"t.seq", 3, 1⟩⟩)
    (fun _ => some "ok\n--\nbad\n") (fun _ => true) "seqc" "t.seq" true ⟨false, []⟩
    ⟨"syntax error", ⟨"t.seq", 3, 1⟩⟩
    ⟨["ok\n"], "bad\n", [], by decide, fun x hx => by rw [List.mem_singleton.mp hx]; rfl, rfl⟩⟩

/-- C9. The claim fails on the code where `tmp/out.htm` cannot be opened: `fopen` returns the
null pointer, which is used unchecked. On an empty file there is no case, `fclose` is called on
the null pointer and the process dies instead of exiting with status 0; on a file with one case
that goes through, the print of the separator to the null stream ends the run the same way. -/
theorem parse_crashes_on_null_stream :
    casesOf (fun _ => some "") "t.seq" = [] ∧
    parse (rejecting "bad\n" ⟨"syntax error", ⟨"t.seq", 3, 1⟩⟩) (fun _ => some "")
      (fun _ => false) "seqc" "t.seq" false false ⟨false, []⟩ = (.crashed, ⟨false, []⟩) ∧
    parse (rejecting "bad\n" ⟨"syntax error", ⟨"t.seq", 3, 1⟩⟩) (fun _ => some "")
      (fun _ => false) "seqc" "t.seq" false false ⟨false, []⟩ ≠ (.exited 0, ⟨false, []⟩) ∧
    parse (rejecting "bad\n" ⟨"syntax error", ⟨"t.seq", 3, 1⟩⟩) (fun _ => some "ok\n")
      (fun _ => false) "seqc" "t.seq" false false ⟨false, []⟩ = (.crashed, ⟨false, []⟩) := by
  refine ⟨by decide, by decide, by decide, by decide⟩

/-! ### Source registration -/

theorem sourceVariadic_eq_foldl {M : Type} (source : M → String → M) (s : String)
    (etc : List String) : ∀ m : M, sourceVariadic source m s etc = (s :: etc).foldl source m := by
  induction etc generalizing s with
  | nil => intro m; rfl
  | cons t etc ih => intro m; simp only [sourceVariadic, ih t, List.foldl_cons]

theorem foldl_source_sources (names : List String) : ∀ m : SeqModule,
    names.foldl SeqModule.source m = { m with sources := m.sources ++ names } := by
  induction names with
  | nil => intro m; simp
  | cons n names ih => intro m; simp [ih, SeqModule.source]

/-- C10. The variadic `source(s1, ..., sn)` is a total function that leaves the module as the
single-argument calls `source(s1); ...; source(sn)` made left to right do, whatever the
one-argument overload does; the one-argument calls it makes are, in order, exactly `s1 ... sn`,
and with the overload appending to `sources` the names are appended once each, in argument
order, the rest of the module unchanged. -/
theorem source_variadic_eq_repeated (s : String) (etc : List String) :
    (∀ (M : Type) (source : M → String → M) (m : M),
      sourceVariadic source m s etc = (s :: etc).foldl source m) ∧
    (∀ calls : List String,
      sourceVariadic (fun log name => log ++ [name]) calls s etc = calls ++ s :: etc) ∧
    (∀ m : SeqModule,
      sourceVariadic SeqModule.source m s etc = { m with sources := m.sources ++ s :: etc }) := by
  refine ⟨fun M source m => sourceVariadic_eq_foldl source s etc m, ?_, ?_⟩
  · intro calls
    rw [sourceVariadic_eq_foldl]
    generalize s :: etc = names
    induction names generalizing calls with
    | nil => simp
    | cons n names ih => simp [ih]
  · intro m
    rw [sourceVariadic_eq_foldl, foldl_source_sources]

/-! ### Visit overrides -/

/-- C7. Every expression kind and every statement kind the specification lists is made of at
least one node class, `CodegenVisitor` overrides `visit` for each of these classes, and so the
dispatch of a node of any listed kind ends in its own `visit` and never in `defaultVisit`; the
overrides are pairwise distinct and every one of them belongs to a listed kind. -/
theorem visit_per_node_kind :
    (∀ k : ExprKind, k.classes ≠ [] ∧ ∀ c ∈ k.classes,
      c ∈ exprVisitOverrides ∧ dispatchExpr c = .visit c ∧ dispatchExpr c ≠ .defaultVisitExpr) ∧
    (∀ k : StmtKind, k.classes ≠ [] ∧ ∀ c ∈ k.classes,
      c ∈ stmtVisitOverrides ∧ dispatchStmt c = .visit c ∧ dispatchStmt c ≠ .defaultVisitStmt) ∧
    (exprVisitOverrides ++ stmtVisitOverrides).Nodup ∧
    (∀ c ∈ exprVisitOverrides, ∃ k : ExprKind, c ∈ k.classes) ∧
    (∀ c ∈ stmtVisitOverrides, ∃ k : StmtKind, c ∈ k.classes) := by
  refine ⟨?_, ?_, by decide, ?_, ?_⟩
  · intro k; cases k <;> decide
  · intro k; cases k <;> decide
  · intro c hc
    simp only [exprVisitOverrides, List.mem_cons, List.mem_singleton, List.not_mem_nil,
      or_false] at hc
    rcases hc with h | h | h | h | h | h | h | h | h | h | h | h | h | h <;> subst h
    · exact ⟨.literal, by decide⟩
    · exact ⟨.literal, by decide⟩
    · exact ⟨.literal, by decide⟩
    · exact ⟨.literal, by decide⟩
    · exact ⟨.identifier, by decide⟩
    · exact ⟨.conditional, by decide⟩
    · exact ⟨.call, by decide⟩
    · exact ⟨.pointerOrStackAlloc, by decide⟩
    · exact ⟨.memberAccess, by decide⟩
    · exact ⟨.pointerOrStackAlloc, by decide⟩
    · exact ⟨.yield, by decide⟩
    · exact ⟨.statementExpression, by decide⟩
    · exact ⟨.pipe, by decide⟩
    · exact ⟨.ellipsisPlaceholder, by decide⟩
  · intro c hc
    simp only [stmtVisitOverrides, List.mem_cons, List.mem_singleton, List.not_mem_nil,
      or_false] at hc
    rcases hc with h | h | h | h | h | h | h | h | h | h | h | h | h | h | h | h | h <;> subst h
    · exact ⟨.block, by decide⟩
    · exact ⟨.pass, by decide⟩
    · exact ⟨.break_, by decide⟩
    · exact ⟨.continue_, by decide⟩
    · exact ⟨.expressionStatement, by decide⟩
    · exact ⟨.assignment, by decide⟩
    · exact ⟨.memberAssignment, by decide⟩
    · exact ⟨.return_, by decide⟩
    · exact ⟨.yield, by decide⟩
    · exact ⟨.while_, by decide⟩
    · exact ⟨.for_, by decide⟩
    · exact ⟨.if_, by decide⟩
    · exact ⟨.update, by decide⟩
    · exact ⟨.tryOrThrow, by decide⟩
    · exact ⟨.tryOrThrow, by decide⟩
    · exact ⟨.functionOrClassDecl, by decide⟩
    · exact ⟨.functionOrClassDecl, by decide⟩

/-! ### Realization cache -/

theorem lookup_append_of_some (c ext : Cache) (id : Nat) (args : List Ty) (h : Nat)
    (hc : c.lookup id args = some h) : Cache.lookup (c ++ ext) id args = some h := by
  induction c generalizing h with
  | nil => simp [Cache.lookup] at hc
  | cons r rest ih =>
    change Cache.lookup (r :: (rest ++ ext)) id args = _
    simp only [Cache.lookup] at hc ⊢
    split
    · rename_i hk; simpa [hk] using hc
    · rename_i hk
      simp only [hk, if_false] at hc
      cases hr : Cache.lookup rest id args with
      | none => simp [hr] at hc
      | some h0 =>
        rw [hr] at hc
        rw [ih h0 hr]
        exact hc

theorem lookup_append_new (c : Cache) (id : Nat) (args : List Ty) (body : List (Nat × List Ty))
    (hc : c.lookup id args = none) :
    Cache.lookup (c ++ [⟨id, args, body⟩]) id args = some c.length := by
  induction c with
  | nil => simp [Cache.lookup]
  | cons r rest ih =>
    change Cache.lookup (r :: (rest ++ [⟨id, args, body⟩])) id args = _
    simp only [Cache.lookup] at hc ⊢
    split
    · rename_i hk; simp [hk] at hc
    · rename_i hk
      simp only [hk, if_false, Option.map_eq_none'] at hc
      rw [ih hc]
      simp

theorem lookup_get (c : Cache) (id : Nat) (args : List Ty) (h : Nat)
    (hc : c.lookup id args = some h) : ∃ r, c.get? h = some r ∧ r.id = id ∧ r.args = args := by
  induction c generalizing h with
  | nil => simp [Cache.lookup] at hc
  | cons r rest ih =>
    simp only [Cache.lookup] at hc
    split at hc
    · rename_i hk
      cases hc
      exact ⟨r, rfl, hk.1, hk.2⟩
    · cases hr : Cache.lookup rest id args with
      | none => simp [hr] at hc
      | some h0 =>
        rw [hr] at hc
        cases hc
        exact ih h0 hr

theorem realizeRefs_extends
    (step : Cache → Nat → List Ty → Except RealizeError (Nat × Cache))
    (hstep : ∀ c id args h c', step c id args = .ok (h, c') → ∃ ext, c' = c ++ ext)
    (refs : List (Nat × List Ty)) : ∀ c c', realizeRefs step c refs = .ok c' →
      ∃ ext, c' = c ++ ext := by
  induction refs with
  | nil => intro c c' h; simp [realizeRefs] at h; exact ⟨[], by simp [h]⟩
  | cons r rest ih =>
    intro c c' h
    obtain ⟨id, args⟩ := r
    simp only [realizeRefs] at h
    cases hs : step c id args with
    | error e => simp [hs] at h
    | ok p =>
      obtain ⟨h0, c0⟩ := p
      rw [hs] at h
      obtain ⟨e1, he1⟩ := hstep c id args h0 c0 hs
      obtain ⟨e2, he2⟩ := ih c0 c' h
      exact ⟨e1 ++ e2, by rw [he2, he1, List.append_assoc]⟩

theorem realize_extends (env : List Generic) : ∀ (fuel : Nat) (c : Cache) (id : Nat)
    (args : List Ty) (h : Nat) (c' : Cache),
    realize env fuel c id args = .ok (h, c') → ∃ ext, c' = c ++ ext := by
  intro fuel
  induction fuel with
  | zero =>
    intro c id args h c' hr
    unfold realize at hr
    cases hl : c.lookup id args with
    | some h0 => simp [hl] at hr; exact ⟨[], by simp [hr.2]⟩
    | none => simp [hl] at hr
  | succ fuel ih =>
    intro c id args h c' hr
    unfold realize at hr
    cases hl : c.lookup id args with
    | some h0 => simp [hl] at hr; exact ⟨[], by simp [hr.2]⟩
    | none =>
      simp only [hl] at hr
      split at hr
      · cases hr
      · split at hr
        · cases hr
        · split at hr
          · cases hr
          · rename_i body _
            split at hr
            · cases hr
            · rename_i cache' hrefs
              cases hr
              obtain ⟨ext, hext⟩ := realizeRefs_extends _ (ih) body _ _ hrefs
              exact ⟨⟨id, args, body⟩ :: ext, by rw [hext]; simp⟩

theorem realize_lookup (env : List Generic) (fuel : Nat) (c : Cache) (id : Nat)
    (args : List Ty) (h : Nat) (c' : Cache)
    (hr : realize env fuel c id args = .ok (h, c')) : c'.lookup id args = some h := by
  cases hl : c.lookup id args with
  | some h0 =>
    cases fuel <;> (unfold realize at hr; simp [hl] at hr; rw [← hr.2, hl, hr.1])
  | none =>
    cases fuel with
    | zero => unfold realize at hr; simp [hl] at hr
    | succ fuel =>
      unfold realize at hr
      simp only [hl] at hr
      split at hr
      · cases hr
      · split at hr
        · cases hr
        · split at hr
          · cases hr
          · rename_i body _
            split at hr
            · cases hr
            · rename_i cache' hrefs
              cases hr
              obtain ⟨ext, hext⟩ := realizeRefs_extends _ (realize_extends env fuel) body _ _ hrefs
              rw [hext]
              exact lookup_append_of_some _ _ _ _ _ (lookup_append_new c id args body hl)

theorem realize_hit (env : List Generic) (fuel : Nat) (c : Cache) (id : Nat) (args : List Ty)
    (h : Nat) (hl : c.lookup id args = some h) : realize env fuel c id args = .ok (h, c) := by
  cases fuel <;> (unfold realize; simp [hl])

/-- C3. Once `realize(E, args)` has returned an entity with handle `h`, a second call on the
same key returns that same handle, whatever its recursion budget, and leaves the cache as it
was, directly after the first call and also after any successful realizations made in between;
the handle names a cache entry carrying exactly the key `(E, args)`. -/
theorem realize_memoized (env : List Generic) (fuel : Nat) (cache : Cache) (id : Nat)
    (args : List Ty) (h : Nat) (c1 : Cache)
    (hfirst : realize env fuel cache id args = .ok (h, c1)) :
    (∀ fuel2, realize env fuel2 c1 id args = .ok (h, c1)) ∧
    (∀ fuel1 between c2, realizeRefs (realize env fuel1) c1 between = .ok c2 →
      ∀ fuel2, realize env fuel2 c2 id args = .ok (h, c2)) ∧
    (∃ r, c1.get? h = some r ∧ r.id = id ∧ r.args = args) := by
  have hl := realize_lookup env fuel cache id args h c1 hfirst
  refine ⟨fun fuel2 => realize_hit env fuel2 c1 id args h hl, ?_, lookup_get c1 id args h hl⟩
  intro fuel1 between c2 hb fuel2
  obtain ⟨ext, hext⟩ := realizeRefs_extends _ (realize_extends env fuel1) between _ _ hb
  exact realize_hit env fuel2 c2 id args h (by rw [hext]; exact lookup_append_of_some _ _ _ _ _ hl)

/-- C3 on the self-referential list class realized at `int`: the first call creates entry 0,
the second returns handle 0 and the one-entry cache unchanged. -/
theorem realize_memoized_witness :
    realize sampleEnv 2 [] 0 [.atomic "int"]
      = .ok (0, [⟨0, [.atomic "int"], [(0, [.atomic "int"])]⟩]) ∧
    realize sampleEnv 0 [⟨0, [.atomic "int"], [(0, [.atomic "int"])]⟩] 0 [.atomic "int"]
      = .ok (0, [⟨0, [.atomic "int"], [(0, [.atomic "int"])]⟩]) :=
  ⟨rfl, (realize_memoized sampleEnv 2 [] 0 [.atomic "int"] 0
    [⟨0, [.atomic "int"], [(0, [.atomic "int"])]⟩] rfl).1 0⟩

/-! ### Function realization -/

theorem lookup_append_some {β : Type} (l l2 : List (String × β)) (k : String) (v : β)
    (h : l.lookup k = some v) : (l ++ l2).lookup k = some v := by
  induction l with
  | nil => simp at h
  | cons p l ih =>
    obtain ⟨k1, v1⟩ := p
    simp only [List.cons_append, List.lookup_cons] at h ⊢
    cases hk : k == k1
    · rw [hk] at h; simpa [hk] using ih h
    · rw [hk] at h; simpa [hk] using h

theorem lookup_append_none {β : Type} (l : List (String × β)) (k : String) (v : β)
    (h : l.lookup k = none) : (l ++ [(k, v)]).lookup k = some v := by
  induction l with
  | nil => simp [List.lookup]
  | cons p l ih =>
    obtain ⟨k1, v1⟩ := p
    simp only [List.cons_append, List.lookup_cons] at h ⊢
    cases hk : k == k1
    · rw [hk] at h; simpa [hk] using ih h
    · rw [hk] at h; simp at h

theorem lookup_none_not_mem {β : Type} (l : List (String × β)) (k : String)
    (h : l.lookup k = none) : k ∉ l.map Prod.fst := by
  induction l with
  | nil => simp
  | cons p l ih =>
    obtain ⟨k1, v1⟩ := p
    simp only [List.lookup_cons] at h
    cases hk : k == k1
    · rw [hk] at h
      have hne : k ≠ k1 := by simpa using hk
      simp only [List.map_cons, List.mem_cons, not_or]
      exact ⟨hne, ih h⟩
    · rw [hk] at h; simp at h

theorem realizeFunc_lookup (ctx : CodegenContext) (name : String) :
    (realizeFunc ctx name).2.functions.lookup name = some (realizeFunc ctx name).1 := by
  unfold realizeFunc
  cases h : ctx.functions.lookup name with
  | some f => simpa using h
  | none => simpa using lookup_append_none _ _ _ h

theorem realizeFunc_keeps (ctx : CodegenContext) (name k : String) (v : Nat)
    (hk : ctx.functions.lookup k = some v) :
    (realizeFunc ctx name).2.functions.lookup k = some v := by
  unfold realizeFunc
  cases h : ctx.functions.lookup name with
  | some f => simpa using hk
  | none => simpa using lookup_append_some _ _ _ _ hk

theorem realizeFunc_hit (ctx : CodegenContext) (name : String) (f : Nat)
    (h : ctx.functions.lookup name = some f) : realizeFunc ctx name = (f, ctx) := by
  simp [realizeFunc, h]

theorem visitCallSites_keeps (sites : List String) : ∀ (ctx : CodegenContext) (k : String)
    (v : Nat), ctx.functions.lookup k = some v →
    (visitCallSites ctx sites).functions.lookup k = some v := by
  induction sites with
  | nil => intro ctx k v h; exact h
  | cons s sites ih =>
    intro ctx k v h
    exact ih _ k v (realizeFunc_keeps ctx s k v h)

theorem realizeFunc_consistent (ctx : CodegenContext) (name : String) (h : ctx.Consistent) :
    (realizeFunc ctx name).2.Consistent := by
  unfold realizeFunc
  cases hl : ctx.functions.lookup name with
  | some f => exact h
  | none =>
    have hn := lookup_none_not_mem _ _ hl
    rw [h.1] at hn
    refine ⟨by simp [h.1], ?_⟩
    simp only [List.map_append, List.map_cons, List.map_nil]
    exact List.Nodup.append h.2 (by simp) (by simpa using hn)

theorem visitCallSites_consistent (sites : List String) : ∀ ctx : CodegenContext,
    ctx.Consistent → (visitCallSites ctx sites).Consistent := by
  induction sites with
  | nil => intro ctx h; exact h
  | cons s sites ih => intro ctx h; exact ih _ (realizeFunc_consistent ctx s h)

theorem lookup_some_mem {β : Type} (l : List (String × β)) (k : String) (v : β)
    (h : l.lookup k = some v) : k ∈ l.map Prod.fst := by
  induction l with
  | nil => simp at h
  | cons p l ih =>
    obtain ⟨k1, v1⟩ := p
    simp only [List.lookup_cons] at h
    cases hk : k == k1
    · rw [hk] at h; simp [ih h]
    · have : k = k1 := by simpa using hk
      simp [this]

theorem visitCallSites_memoizes (sites : List String) : ∀ (ctx : CodegenContext),
    ∀ n ∈ sites, ∃ v, (visitCallSites ctx sites).functions.lookup n = some v := by
  induction sites with
  | nil => intro ctx n hn; simp at hn
  | cons s sites ih =>
    intro ctx n hn
    rcases List.mem_cons.mp hn with rfl | hn
    · exact ⟨_, visitCallSites_keeps sites _ _ _ (realizeFunc_lookup ctx n)⟩
    · exact ih _ n hn

theorem emittedFor_eq_count (ctx : CodegenContext) (name : String) :
    emittedFor ctx name = (ctx.module.map IRFunc.name).count name := by
  unfold emittedFor
  induction ctx.module with
  | nil => rfl
  | cons f l ih =>
    by_cases h : f.name = name
    · simp [List.filter_cons, h, ih]
    · simp [List.filter_cons, h, ih, List.count_cons]

theorem emittedFor_of_memoized (ctx : CodegenContext) (name : String) (v : Nat)
    (hc : ctx.Consistent) (h : ctx.functions.lookup name = some v) : emittedFor ctx name = 1 := by
  rw [emittedFor_eq_count]
  have hm := lookup_some_mem _ _ _ h
  rw [hc.1] at hm
  exact List.count_eq_one_of_mem hc.2 hm

theorem lookup_append_of_none {β : Type} (l l2 : List (String × β)) (k : String)
    (h : l.lookup k = none) : (l ++ l2).lookup k = l2.lookup k := by
  induction l with
  | nil => rfl
  | cons p l ih =>
    obtain ⟨k1, v1⟩ := p
    simp only [List.cons_append, List.lookup_cons] at h ⊢
    cases hk : k == k1
    · rw [hk] at h; simpa [hk] using ih h
    · rw [hk] at h; simp at h

theorem realizeFunc_positions (ctx : CodegenContext) (name : String)
    (h : ∀ k v, ctx.functions.lookup k = some v → ctx.module.get? v = some ⟨k⟩) :
    ∀ k v, (realizeFunc ctx name).2.functions.lookup k = some v →
      (realizeFunc ctx name).2.module.get? v = some ⟨k⟩ := by
  unfold realizeFunc
  cases hl : ctx.functions.lookup name with
  | some f => exact h
  | none =>
    intro k v hkv
    simp only at hkv ⊢
    cases hk : ctx.functions.lookup k with
    | some v0 =>
      rw [lookup_append_some _ _ _ _ hk] at hkv
      have hv : v0 = v := by simpa using hkv
      subst hv
      have := h k v0 hk
      have hlt : v0 < ctx.module.length := by
        rcases Nat.lt_or_ge v0 ctx.module.length with h1 | h1
        · exact h1
        · rw [List.get?_eq_none.mpr h1] at this; cases this
      rw [List.get?_eq_getElem?, List.getElem?_append_left hlt, ← List.get?_eq_getElem?]
      exact this
    | none =>
      rw [lookup_append_of_none _ _ _ hk] at hkv
      simp only [List.lookup_cons, List.lookup_nil] at hkv
      cases hkn : k == name
      · rw [hkn] at hkv; cases hkv
      · rw [hkn] at hkv
        cases hkv
        have : k = name := by simpa using hkn
        subst this
        simp [List.get?_eq_getElem?]

theorem visitCallSites_positions (sites : List String) : ∀ ctx : CodegenContext,
    (∀ k v, ctx.functions.lookup k = some v → ctx.module.get? v = some ⟨k⟩) →
    ∀ k v, (visitCallSites ctx sites).functions.lookup k = some v →
      (visitCallSites ctx sites).module.get? v = some ⟨k⟩ := by
  induction sites with
  | nil => intro ctx h; exact h
  | cons s sites ih => intro ctx h; exact ih _ (realizeFunc_positions ctx s h)

theorem visitCallSites_names (sites : List String) : ∀ (ctx : CodegenContext) (k : String),
    k ∈ (visitCallSites ctx sites).functions.map Prod.fst →
      k ∈ ctx.functions.map Prod.fst ∨ k ∈ sites := by
  induction sites with
  | nil => intro ctx k h; exact Or.inl h
  | cons s sites ih =>
    intro ctx k h
    rcases ih _ k h with h1 | h1
    · change k ∈ List.map Prod.fst (realizeFunc ctx s).2.functions at h1
      unfold realizeFunc at h1
      cases hl : ctx.functions.lookup s with
      | some f => rw [hl] at h1; exact Or.inl h1
      | none =>
        rw [hl] at h1
        simp only [List.map_append, List.map_cons, List.map_nil, List.mem_append,
          List.mem_singleton] at h1
        rcases h1 with h2 | h2
        · exact Or.inl h2
        · exact Or.inr (by simp [h2])
    · exact Or.inr (List.mem_cons_of_mem _ h1)

theorem init_consistent : CodegenContext.init.Consistent := by
  simp [CodegenContext.Consistent, CodegenContext.init]

/-- C4. In the context reached from the start of a run by any earlier call sites, a call
`realizeFunc(name)` for a name not met before appends exactly one IR function, the one for
`name`, to a module that held none for it; the function returned is the one for `name`; every
later call for `name`, after any further call sites, returns that same function and leaves
module and memo table as they are; and the module holds exactly one IR function for `name`
however many call sites follow. -/
theorem realizeFunc_emits_once (earlier : List String) (name : String) :
    (name ∉ earlier →
      emittedFor (visitCallSites .init earlier) name = 0 ∧
      (realizeFunc (visitCallSites .init earlier) name).2.module
        = (visitCallSites .init earlier).module ++ [⟨name⟩]) ∧
    (realizeFunc (visitCallSites .init earlier) name).2.module.get?
        (realizeFunc (visitCallSites .init earlier) name).1 = some ⟨name⟩ ∧
    (∀ later : List String,
      realizeFunc (visitCallSites (realizeFunc (visitCallSites .init earlier) name).2 later) name
        = ((realizeFunc (visitCallSites .init earlier) name).1,
            visitCallSites (realizeFunc (visitCallSites .init earlier) name).2 later)) ∧
    (∀ later : List String,
      emittedFor (visitCallSites (realizeFunc (visitCallSites .init earlier) name).2 later) name
        = 1) := by
  have hc0 := visitCallSites_consistent earlier _ init_consistent
  have hp0 := visitCallSites_positions earlier .init (by simp [CodegenContext.init])
  have hl1 := realizeFunc_lookup (visitCallSites .init earlier) name
  refine ⟨?_, ?_, ?_, ?_⟩
  · intro hnot
    have hnone : (visitCallSites .init earlier).functions.lookup name = none := by
      cases hl : (visitCallSites .init earlier).functions.lookup name with
      | none => rfl
      | some v =>
        have := visitCallSites_names earlier .init name (lookup_some_mem _ _ _ hl)
        simp [CodegenContext.init, hnot] at this
    constructor
    · rw [emittedFor_eq_count, ← hc0.1]
      exact List.count_eq_zero_of_not_mem (lookup_none_not_mem _ _ hnone)
    · simp [realizeFunc, hnone]
  · exact realizeFunc_positions _ name hp0 name _ hl1
  · intro later
    exact realizeFunc_hit _ name _ (visitCallSites_keeps later _ name _ hl1)
  · intro later
    exact emittedFor_of_memoized _ name _
      (visitCallSites_consistent later _ (realizeFunc_consistent _ name hc0))
      (visitCallSites_keeps later _ name _ hl1)

/-! ### Indexed composition -/

theorem outputs_attach_same (p x : Pipeline) (s : Slot) :
    (p.attach s x).outputs s = p.outputs s ++ [x] := by
  simp [Pipeline.attach, Pipeline.outputs, Pipeline.attached, List.filter_append]

theorem outputs_attach_other (p x : Pipeline) (s t : Slot) (h : s ≠ t) :
    (p.attach s x).outputs t = p.outputs t := by
  simp [Pipeline.attach, Pipeline.outputs, Pipeline.attached, List.filter_append, h]

theorem aggregator_setAggregator (m : SeqModule) (ph : Phase) (a : PipelineAggregator) :
    (m.setAggregator ph a).aggregator ph = a := by
  cases ph <;> rfl

theorem aggregator_setAggregator_other (m : SeqModule) (ph ph2 : Phase)
    (a : PipelineAggregator) (h : ph2 ≠ ph) :
    (m.setAggregator ph a).aggregator ph2 = m.aggregator ph2 := by
  cases ph <;> cases ph2 <;> first | rfl | exact absurd rfl h

/-- C6. When the aggregator a proxy refers to holds at least one pipeline, `aggregator[idx] | X`
replaces the most recently added pipeline by the same pipeline with `X` appended to its output
slot `idx`: the default slot and every other numbered slot keep their attachments, the stages
are the same, the older pipelines of the aggregator, the other two aggregators, the sources and
the standalone flag are unchanged. -/
theorem indexed_composition (m : SeqModule) (ph : Phase) (idx : Nat) (X : Pipeline)
    (older : List Pipeline) (recent : Pipeline)
    (h : (m.aggregator ph).pipelines = older ++ [recent]) :
    ∃ full m2, PipelineAggregatorProxy.pipe m ⟨ph, idx⟩ X = some (full, m2) ∧
      (m2.aggregator ph).pipelines = older ++ [full] ∧
      full.outputs (.numbered idx) = recent.outputs (.numbered idx) ++ [X] ∧
      full.outputs .default = recent.outputs .default ∧
      (∀ j, j ≠ idx → full.outputs (.numbered j) = recent.outputs (.numbered j)) ∧
      full.stages = recent.stages ∧
      (∀ ph2, ph2 ≠ ph → m2.aggregator ph2 = m.aggregator ph2) ∧
      m2.sources = m.sources ∧ m2.standalone = m.standalone := by
  refine ⟨recent.attach (.numbered idx) X,
    m.setAggregator ph ⟨older ++ [recent.attach (.numbered idx) X]⟩,
    ?_, ?_, ?_, ?_, ?_, ?_, ?_, ?_, ?_⟩
  · simp [PipelineAggregatorProxy.pipe, PipelineAggregator.addWithIndex, h]
  · rw [aggregator_setAggregator]
  · exact outputs_attach_same _ _ _
  · exact outputs_attach_other _ _ _ _ (by simp)
  · intro j hj
    exact outputs_attach_other _ _ _ _ (by simp; exact fun e => hj e.symm)
  · rfl
  · intro ph2 h2
    exact aggregator_setAggregator_other _ _ _ _ h2
  · cases ph <;> rfl
  · cases ph <;> rfl

/-- C6 on the sample module: `main[2] | X` attaches `X` to slot 2 of the pipeline `M`. -/
theorem indexed_composition_witness :
    (sampleModule.aggregator .main).pipelines = [] ++ [Pipeline.mk ["M"] []] ∧
    ∃ full m2, PipelineAggregatorProxy.pipe sampleModule ⟨.main, 2⟩ (.mk ["X"] [])
        = some (full, m2) ∧
      (m2.aggregator .main).pipelines = [] ++ [full] ∧
      full.outputs (.numbered 2) = (Pipeline.mk ["M"] []).outputs (.numbered 2) ++ [.mk ["X"] []] ∧
      full.outputs .default = (Pipeline.mk ["M"] []).outputs .default ∧
      (∀ j, j ≠ 2 → full.outputs (.numbered j) = (Pipeline.mk ["M"] []).outputs (.numbered j)) ∧
      full.stages = (Pipeline.mk ["M"] []).stages ∧
      (∀ ph2, ph2 ≠ Phase.main → m2.aggregator ph2 = sampleModule.aggregator ph2) ∧
      m2.sources = sampleModule.sources ∧ m2.standalone = sampleModule.standalone :=
  ⟨rfl, indexed_composition sampleModule .main 2 (.mk ["X"] []) [] (.mk ["M"] []) rfl⟩

end Seq
